import Mathlib

/-!
Verification of the covariance / predictive-information utilities of the DAPC
repository (file dapc/cov_utils.py).

Matrices are embedded as total functions over natural-number indices with
exact rational entries (floating-point arithmetic idealized as exact
arithmetic); only the entries with both indices below the matrix size are
meaningful.  A (T*d) x (T*d) matrix is block-indexed: flat index i lies in
block row i / d at intra-block row i % d, matching the reshape(T, d, T, d)
view used by the source.

The batched time series of calc_cov_from_data is a function of
(batch, time, feature), its boolean mask a function of (batch, time).
Fallible code (the ValueError raise) is embedded with Except.
-/

namespace DAPC

/-- Line 88 of cov_utils.py: the symmetrization cov = (cov + cov.t()) / 2.0,
entrywise. -/
def sym_part (M : ℕ → ℕ → ℚ) : ℕ → ℕ → ℚ := fun i j => (M i j + M j i) / 2

/-- Lines 90-98 of cov_utils.py.  After symmetrizing, the source reshapes to
(d*d, T*T), pads each row with T zeros, and uses unfold together with the
upper-triangular indicator of ones([T+1, T]) so that, for each entry position
(a, b) and each lag k in [0, T), the slot k of the window sum collects exactly
the entries S[t*d + a, (t+k)*d + b] for t in [0, T-k) and divides by their
count T - k: the average of the T - k blocks of the symmetrized input lying on
block-diagonal k.  (For k >= T the range is empty and the rational division by
zero yields the junk value 0, which the source never materializes.) -/
def lag_avg (T d : ℕ) (M : ℕ → ℕ → ℚ) (k a b : ℕ) : ℚ :=
  (∑ t ∈ Finset.range (T - k), sym_part M (t * d + a) ((t + k) * d + b)) / ((T - k : ℕ) : ℚ)

/-- Lines 97-98 of cov_utils.py: the tensor avg * ind_unfold reshaped back to
(d, d, T, T) holds, at block (t1, t2), the lag average for lag t2 - t1 when
t2 >= t1 (the upper block triangle selected by triu) and 0 below it. -/
def toeplitz_upper (T d : ℕ) (M : ℕ → ℕ → ℚ) : ℕ → ℕ → ℚ := fun i j =>
  if i / d ≤ j / d then lag_avg T d M (j / d - i / d) (i % d) (j % d) else 0

/-- Lines 100-103 of cov_utils.py: result = (avg + avg.permute(1, 0, 3, 2)) /
(indicator + indicator.transpose(2, 3)), then permuted back to flat (T*d, T*d)
indexing.  In flat indexing the permuted summand is the transpose of the
upper-triangular tensor, and the denominator is 2 on diagonal blocks
(i / d = j / d) and 1 elsewhere. -/
def matrix_toeplitzify (T d : ℕ) (cov : ℕ → ℕ → ℚ) : ℕ → ℕ → ℚ := fun i j =>
  (toeplitz_upper T d cov i j + toeplitz_upper T d cov j i) /
    (if i / d = j / d then 2 else 1)

/-- An eigenvalue of a square real matrix, witnessed by a nonzero eigenvector
(the spectrum that sp.linalg.eigvalsh enumerates for the symmetric input of
rectify_spectrum, idealized to exact arithmetic). -/
def IsEigenvalue {n : ℕ} (A : Matrix (Fin n) (Fin n) ℝ) (μ : ℝ) : Prop :=
  ∃ v : Fin n → ℝ, v ≠ 0 ∧ A.mulVec v = μ • v

/-- The minimum eigenvalue: an eigenvalue that lower-bounds every eigenvalue.
This is the exact-arithmetic idealization of
np.min(sp.linalg.eigvalsh(cov)) at line 119 of cov_utils.py. -/
def IsMinEigenvalue {n : ℕ} (A : Matrix (Fin n) (Fin n) ℝ) (μ : ℝ) : Prop :=
  IsEigenvalue A μ ∧ ∀ lam : ℝ, IsEigenvalue A lam → μ ≤ lam

/-- Lines 119-123 of cov_utils.py.  The value min_eig models the result of the
eigvalsh library call (theorems constrain it through IsMinEigenvalue); if it is
negative the source adds (-min_eig + epsilon) * torch.eye(n) to cov, otherwise
cov is left untouched.  The generic linearly ordered field is instantiated at
the reals in the theorems below. -/
def rectify_spectrum {α : Type} [LinearOrderedField α] {n : ℕ}
    (cov : Matrix (Fin n) (Fin n) α) (min_eig ε : α) : Matrix (Fin n) (Fin n) α :=
  if min_eig < 0 then cov + (-min_eig + ε) • (1 : Matrix (Fin n) (Fin n) α) else cov

/-- The top-left m x m corner cov[:m, :m] of an n x n matrix (the slicing at
line 143 of cov_utils.py). -/
def firstBlock {α : Type} (m n : ℕ) (h : m ≤ n) (cov : Matrix (Fin n) (Fin n) α) :
    Matrix (Fin m) (Fin m) α :=
  Matrix.submatrix cov (fun i => ⟨i.1, lt_of_lt_of_le i.2 h⟩)
    (fun j => ⟨j.1, lt_of_lt_of_le j.2 h⟩)

/-- Lines 126-148 of cov_utils.py, calc_pi_from_cov.  The log-determinant
torch.logdet is an external numerical routine; it is modelled as an explicit
function parameter (one per matrix size), so the theorems hold for every
semantics of logdet.  T_pi is the floor half of the input size, exactly as
cov_2_T_pi.shape[0] // 2. -/
def calc_pi_from_cov {α : Type} [Field α]
    (logdet : (m : ℕ) → Matrix (Fin m) (Fin m) α → α)
    (n : ℕ) (cov : Matrix (Fin n) (Fin n) α) : α :=
  logdet (n / 2) (firstBlock (n / 2) n (Nat.div_le_self n 2) cov) - 1 / 2 * logdet n cov

/-- The number of true entries of one mask row restricted to time indices
below L: src_mask.sum(1) for that row (line 176 of cov_utils.py). -/
def valid_count (L : ℕ) (row : ℕ → Bool) : ℕ :=
  ∑ l ∈ Finset.range L, if row l then 1 else 0

/-- torch.min(src_mask.sum(1)) over the B batch rows (line 176 of
cov_utils.py), valued in WithTop so that it is total; the source assumes a
nonempty batch, for which the value is the coercion of the honest minimum. -/
def min_valid_count (B L : ℕ) (src_mask : ℕ → ℕ → Bool) : WithTop ℕ :=
  (Finset.range B).inf fun b => ((valid_count L (src_mask b) : ℕ) : WithTop ℕ)

/-- The exact message of the ValueError raised at lines 177-179 of
cov_utils.py. -/
def dca_err_msg : String :=
  "T must be shorter than the length of the shortest time series. If you are using the DCA model, 2 * DCA.T must be shorter than the shortest time series."

/-- Line 184 of cov_utils.py: src_mask.unfold(1, T, 1).all(dim=2); the sliding
window of length T starting at w is valid iff all T covered timesteps are
valid. -/
def window_valid (row : ℕ → Bool) (T w : ℕ) : Bool :=
  decide (∀ t, t < T → row (w + t) = true)

/-- Line 182 of cov_utils.py: entry i of the flattened lagged vector of window
w is the feature i % d of timestep w + i / d
(xs_pad.view(B, maxlen*d).unfold(1, T*d, d)). -/
def xs_lag (d : ℕ) (row : ℕ → ℕ → ℚ) (w i : ℕ) : ℚ := row (w + i / d) (i % d)

/-- torch.sum(mask_float): the number of valid windows over all batch rows and
the L - T + 1 window start positions. -/
def win_count (B L T : ℕ) (src_mask : ℕ → ℕ → Bool) : ℕ :=
  ∑ b ∈ Finset.range B, ∑ w ∈ Finset.range (L - T + 1),
    if window_valid (src_mask b) T w then 1 else 0

/-- Line 187 of cov_utils.py: xs_with_lags_mean, the masked mean of the lagged
vectors (invalid windows contribute zero to the numerator). -/
def lag_mean (B L d T : ℕ) (xs : ℕ → ℕ → ℕ → ℚ) (src_mask : ℕ → ℕ → Bool) (i : ℕ) : ℚ :=
  (∑ b ∈ Finset.range B, ∑ w ∈ Finset.range (L - T + 1),
      if window_valid (src_mask b) T w then xs_lag d (xs b) w i else 0) /
    ((win_count B L T src_mask : ℕ) : ℚ)

/-- Lines 189-191 of cov_utils.py: the mean is subtracted from every lagged
vector and cov_est is the mask-weighted average of the outer products. -/
def cov_raw (B L d T : ℕ) (xs : ℕ → ℕ → ℕ → ℚ) (src_mask : ℕ → ℕ → Bool) : ℕ → ℕ → ℚ :=
  fun i j =>
    (∑ b ∈ Finset.range B, ∑ w ∈ Finset.range (L - T + 1),
        if window_valid (src_mask b) T w then
          (xs_lag d (xs b) w i - lag_mean B L d T xs src_mask i) *
            (xs_lag d (xs b) w j - lag_mean B L d T xs src_mask j)
        else 0) /
      ((win_count B L T src_mask : ℕ) : ℚ)

/-- torch.eye as a total-function matrix (line 196 of cov_utils.py). -/
def eye_q (i j : ℕ) : ℚ := if i = j then 1 else 0

/-- Lines 151-198 of cov_utils.py, calc_cov_from_data: validate that the
shortest valid length exceeds T (else raise the ValueError), estimate the
masked covariance of the lagged vectors, optionally Toeplitzify, and if
reg > 0 add reg * eye(T*d). -/
def calc_cov_from_data (B L d : ℕ) (xs : ℕ → ℕ → ℕ → ℚ) (src_mask : ℕ → ℕ → Bool)
    (T : ℕ) (toeplitzify : Bool) (reg : ℚ) : Except String (ℕ → ℕ → ℚ) :=
  if min_valid_count B L src_mask ≤ (T : WithTop ℕ) then
    Except.error dca_err_msg
  else
    let cov_est := cov_raw B L d T xs src_mask
    let cov_est2 := if toeplitzify then matrix_toeplitzify T d cov_est else cov_est
    Except.ok (if reg > 0 then fun i j => cov_est2 i j + reg * eye_q i j else cov_est2)

/-- Plain (unmasked) empirical sliding-window cross-covariance, written from
the specification: every one of the B * (L - T + 1) windows contributes, the
mean over all windows is subtracted, and the outer products are averaged.
Used to compare calc_cov_from_data against the spec when the mask is all
true. -/
def plain_mean (B L d T : ℕ) (xs : ℕ → ℕ → ℕ → ℚ) (i : ℕ) : ℚ :=
  (∑ b ∈ Finset.range B, ∑ w ∈ Finset.range (L - T + 1), xs b (w + i / d) (i % d)) /
    ((B * (L - T + 1) : ℕ) : ℚ)

/-- Plain empirical sliding-window covariance (see plain_mean). -/
def plain_sliding_cov (B L d T : ℕ) (xs : ℕ → ℕ → ℕ → ℚ) : ℕ → ℕ → ℚ :=
  fun i j =>
    (∑ b ∈ Finset.range B, ∑ w ∈ Finset.range (L - T + 1),
        (xs b (w + i / d) (i % d) - plain_mean B L d T xs i) *
          (xs b (w + j / d) (j % d) - plain_mean B L d T xs j)) /
      ((B * (L - T + 1) : ℕ) : ℚ)

/-! ### Index bookkeeping for the block structure -/

theorem idx_div {d : ℕ} (t a : ℕ) (ha : a < d) : (t * d + a) / d = t := by
  have hd : 0 < d := Nat.zero_lt_of_lt ha
  rw [Nat.add_comm, Nat.add_mul_div_right _ _ hd, Nat.div_eq_of_lt ha, Nat.zero_add]

theorem idx_mod {d : ℕ} (t a : ℕ) (ha : a < d) : (t * d + a) % d = a := by
  rw [Nat.add_comm, Nat.add_mul_mod_self_right, Nat.mod_eq_of_lt ha]

theorem sym_part_comm (M : ℕ → ℕ → ℚ) (i j : ℕ) : sym_part M i j = sym_part M j i := by
  simp [sym_part, add_comm]

/-! ### Entrywise characterization of the Toeplitzified matrix -/

theorem toep_entry_lt {T d : ℕ} (M : ℕ → ℕ → ℚ) {t1 t2 a b : ℕ} (h : t1 < t2)
    (ha : a < d) (hb : b < d) :
    matrix_toeplitzify T d M (t1 * d + a) (t2 * d + b) = lag_avg T d M (t2 - t1) a b := by
  simp only [matrix_toeplitzify, toeplitz_upper, idx_div _ _ ha, idx_div _ _ hb,
    idx_mod _ _ ha, idx_mod _ _ hb]
  rw [if_pos (le_of_lt h), if_neg (not_le.mpr h), if_neg (Nat.ne_of_lt h)]
  rw [add_zero, div_one]

theorem toep_entry_gt {T d : ℕ} (M : ℕ → ℕ → ℚ) {t1 t2 a b : ℕ} (h : t2 < t1)
    (ha : a < d) (hb : b < d) :
    matrix_toeplitzify T d M (t1 * d + a) (t2 * d + b) = lag_avg T d M (t1 - t2) b a := by
  simp only [matrix_toeplitzify, toeplitz_upper, idx_div _ _ ha, idx_div _ _ hb,
    idx_mod _ _ ha, idx_mod _ _ hb]
  rw [if_neg (not_le.mpr h), if_pos (le_of_lt h), if_neg (Nat.ne_of_gt h)]
  rw [zero_add, div_one]

theorem toep_entry_diag {T d : ℕ} (M : ℕ → ℕ → ℚ) {t a b : ℕ} (ha : a < d) (hb : b < d) :
    matrix_toeplitzify T d M (t * d + a) (t * d + b) =
      (lag_avg T d M 0 a b + lag_avg T d M 0 b a) / 2 := by
  simp only [matrix_toeplitzify, toeplitz_upper, idx_div _ _ ha, idx_div _ _ hb,
    idx_mod _ _ ha, idx_mod _ _ hb]
  rw [if_pos (le_refl t), if_pos (le_refl t), Nat.sub_self, if_pos trivial]

theorem lag_avg_zero_swap (T d : ℕ) (M : ℕ → ℕ → ℚ) (a b : ℕ) :
    lag_avg T d M 0 b a = lag_avg T d M 0 a b := by
  unfold lag_avg
  congr 1
  exact Finset.sum_congr rfl fun t _ => by simp only [Nat.add_zero]; exact sym_part_comm M _ _

theorem toep_symm (T d : ℕ) (M : ℕ → ℕ → ℚ) (i j : ℕ) :
    matrix_toeplitzify T d M i j = matrix_toeplitzify T d M j i := by
  have hden : (if i / d = j / d then (2 : ℚ) else 1) = if j / d = i / d then 2 else 1 := by
    by_cases h : i / d = j / d
    · rw [if_pos h, if_pos h.symm]
    · rw [if_neg h, if_neg fun hh => h hh.symm]
  simp only [matrix_toeplitzify]
  rw [hden, add_comm]

/-- Claim C7: matrix_toeplitzify preserves symmetry of the whole matrix: the
output equals its own transpose, entrywise. -/
theorem matrix_toeplitzify_symmetric (T d : ℕ) (M : ℕ → ℕ → ℚ) (i j : ℕ) :
    matrix_toeplitzify T d M i j = matrix_toeplitzify T d M j i :=
  toep_symm T d M i j

/-- Claim C1: the output of matrix_toeplitzify is block-Toeplitz: output
blocks with equal block-index difference t1 - t2 coincide, and for every lag
k >= 0 the block at (t, t + k) is the mean of the T - k blocks at lag k of the
symmetrized input (M + M^t) / 2. -/
theorem matrix_toeplitzify_block_toeplitz (T d : ℕ) (hT : 0 < T) (hd : 0 < d)
    (M : ℕ → ℕ → ℚ) :
    (∀ t1 t2 t1' t2' a b : ℕ, t1 < T → t2 < T → t1' < T → t2' < T → a < d → b < d →
        (t1 : ℤ) - (t2 : ℤ) = (t1' : ℤ) - (t2' : ℤ) →
        matrix_toeplitzify T d M (t1 * d + a) (t2 * d + b) =
          matrix_toeplitzify T d M (t1' * d + a) (t2' * d + b)) ∧
    (∀ k t a b : ℕ, t + k < T → a < d → b < d →
        matrix_toeplitzify T d M (t * d + a) ((t + k) * d + b) =
          (∑ s ∈ Finset.range (T - k),
              (M (s * d + a) ((s + k) * d + b) + M ((s + k) * d + b) (s * d + a)) / 2) /
            ((T - k : ℕ) : ℚ)) := by
  constructor
  · intro t1 t2 t1' t2' a b _ _ _ _ ha hb hlag
    rcases lt_trichotomy t1 t2 with h | h | h
    · have h' : t1' < t2' := by omega
      rw [toep_entry_lt M h ha hb, toep_entry_lt M h' ha hb,
        show t2 - t1 = t2' - t1' by omega]
    · have h' : t1' = t2' := by omega
      subst h
      subst h'
      rw [toep_entry_diag M ha hb, toep_entry_diag M ha hb]
    · have h' : t2' < t1' := by omega
      rw [toep_entry_gt M h ha hb, toep_entry_gt M h' ha hb,
        show t1 - t2 = t1' - t2' by omega]
  · intro k t a b htk ha hb
    have hrhs : (∑ s ∈ Finset.range (T - k),
        (M (s * d + a) ((s + k) * d + b) + M ((s + k) * d + b) (s * d + a)) / 2) /
          ((T - k : ℕ) : ℚ) = lag_avg T d M k a b := by
      unfold lag_avg sym_part
      rfl
    rw [hrhs]
    rcases Nat.eq_zero_or_pos k with hk | hk
    · subst hk
      simp only [Nat.add_zero]
      rw [toep_entry_diag M ha hb, lag_avg_zero_swap]
      ring
    · have h : t < t + k := by omega
      rw [toep_entry_lt M h ha hb, Nat.add_sub_cancel_left]

/-! ### Idempotence of the Toeplitzification -/

theorem sym_part_toep (T d : ℕ) (M : ℕ → ℕ → ℚ) (i j : ℕ) :
    sym_part (matrix_toeplitzify T d M) i j = matrix_toeplitzify T d M i j := by
  unfold sym_part
  rw [← toep_symm T d M i j]
  ring

theorem lag_avg_toep {T d : ℕ} (M : ℕ → ℕ → ℚ) {a b : ℕ} (k : ℕ) (ha : a < d) (hb : b < d) :
    lag_avg T d (matrix_toeplitzify T d M) k a b = lag_avg T d M k a b := by
  have hconst : ∀ t : ℕ,
      matrix_toeplitzify T d M (t * d + a) ((t + k) * d + b) = lag_avg T d M k a b := by
    intro t
    rcases Nat.eq_zero_or_pos k with hk | hk
    · subst hk
      simp only [Nat.add_zero]
      rw [toep_entry_diag M ha hb, lag_avg_zero_swap]
      ring
    · rw [toep_entry_lt M (Nat.lt_add_of_pos_right hk) ha hb, Nat.add_sub_cancel_left]
  have hsum : (∑ t ∈ Finset.range (T - k),
      sym_part (matrix_toeplitzify T d M) (t * d + a) ((t + k) * d + b)) =
        ((T - k : ℕ) : ℚ) * lag_avg T d M k a b := by
    rw [Finset.sum_congr rfl fun t _ => by rw [sym_part_toep, hconst t]]
    rw [Finset.sum_const, Finset.card_range, nsmul_eq_mul]
  unfold lag_avg
  rw [hsum]
  by_cases h : T - k = 0
  · rw [h]
    simp [lag_avg, h]
  · exact mul_div_cancel_left₀ _ (Nat.cast_ne_zero.mpr h)

/-- Claim C5: matrix_toeplitzify is idempotent: applying it twice equals
applying it once, entrywise. -/
theorem matrix_toeplitzify_idempotent (T d : ℕ) (hT : 0 < T) (hd : 0 < d)
    (M : ℕ → ℕ → ℚ) (i j : ℕ) :
    matrix_toeplitzify T d (matrix_toeplitzify T d M) i j = matrix_toeplitzify T d M i j := by
  have ha : i % d < d := Nat.mod_lt _ hd
  have hb : j % d < d := Nat.mod_lt _ hd
  have hi : i / d * d + i % d = i := by rw [mul_comm]; exact Nat.div_add_mod i d
  have hj : j / d * d + j % d = j := by rw [mul_comm]; exact Nat.div_add_mod j d
  conv_lhs => rw [← hi, ← hj]
  conv_rhs => rw [← hi, ← hj]
  rcases lt_trichotomy (i / d) (j / d) with h | h | h
  · rw [toep_entry_lt _ h ha hb, toep_entry_lt M h ha hb, lag_avg_toep M _ ha hb]
  · rw [h, toep_entry_diag _ ha hb, toep_entry_diag M ha hb,
      lag_avg_toep M 0 ha hb, lag_avg_toep M 0 hb ha]
  · rw [toep_entry_gt _ h ha hb, toep_entry_gt M h ha hb, lag_avg_toep M _ hb ha]

/-! ### Trace preservation -/

theorem sum_range_mul_q (T d : ℕ) (f : ℕ → ℚ) :
    ∑ i ∈ Finset.range (T * d), f i =
      ∑ t ∈ Finset.range T, ∑ a ∈ Finset.range d, f (t * d + a) := by
  induction T with
  | zero => simp
  | succ n ih =>
    rw [Finset.sum_range_succ, ← ih, show (n + 1) * d = n * d + d by ring,
      Finset.range_eq_Ico,
      ← Finset.sum_Ico_consecutive f (Nat.zero_le (n * d)) (Nat.le_add_right (n * d) d)]
    congr 1
    rw [Finset.sum_Ico_eq_sum_range, show n * d + d - n * d = d from by omega,
      Nat.Ico_zero_eq_range]

theorem sum_range_mul_diag_q (T d : ℕ) (g : ℕ → ℕ → ℚ) :
    ∑ i ∈ Finset.range (T * d), g i i =
      ∑ t ∈ Finset.range T, ∑ a ∈ Finset.range d, g (t * d + a) (t * d + a) :=
  sum_range_mul_q T d fun i => g i i

theorem toep_diag_entry {T d : ℕ} (M : ℕ → ℕ → ℚ) (hd : 0 < d) (i : ℕ) :
    matrix_toeplitzify T d M i i = lag_avg T d M 0 (i % d) (i % d) := by
  have hx : i / d * d + i % d = i := by rw [mul_comm]; exact Nat.div_add_mod i d
  conv_lhs => rw [← hx]
  rw [toep_entry_diag M (Nat.mod_lt _ hd) (Nat.mod_lt _ hd)]
  ring

/-- Claim C10: matrix_toeplitzify preserves the trace: the sum of the diagonal
entries of the output over the full (T*d) x (T*d) shape equals that of the
input. -/
theorem matrix_toeplitzify_trace (T d : ℕ) (M : ℕ → ℕ → ℚ) :
    ∑ i ∈ Finset.range (T * d), matrix_toeplitzify T d M i i =
      ∑ i ∈ Finset.range (T * d), M i i := by
  rcases Nat.eq_zero_or_pos d with hd | hd
  · subst hd
    simp
  rcases Nat.eq_zero_or_pos T with hT | hT
  · subst hT
    simp
  have hstep1 : ∑ i ∈ Finset.range (T * d), matrix_toeplitzify T d M i i =
      ∑ t ∈ Finset.range T, ∑ a ∈ Finset.range d, lag_avg T d M 0 a a := by
    rw [Finset.sum_congr rfl fun i _ => toep_diag_entry M hd i, sum_range_mul_q]
    exact Finset.sum_congr rfl fun t _ => Finset.sum_congr rfl fun a hha => by
      rw [idx_mod t a (Finset.mem_range.mp hha)]
  have hstep2 : ∑ t ∈ Finset.range T, ∑ a ∈ Finset.range d, lag_avg T d M 0 a a =
      ∑ a ∈ Finset.range d, ∑ t ∈ Finset.range T, sym_part M (t * d + a) (t * d + a) := by
    rw [Finset.sum_const, Finset.card_range, nsmul_eq_mul, Finset.mul_sum]
    refine Finset.sum_congr rfl fun a _ => ?_
    unfold lag_avg
    rw [Nat.sub_zero]
    rw [mul_div_cancel₀ _ (Nat.cast_ne_zero.mpr (Nat.pos_iff_ne_zero.mp hT))]
    exact Finset.sum_congr rfl fun t _ => by rw [Nat.add_zero]
  rw [hstep1, hstep2, Finset.sum_comm, ← sum_range_mul_diag_q T d (sym_part M)]
  exact Finset.sum_congr rfl fun i _ => by unfold sym_part; ring

/-! ### The length-precondition check of calc_cov_from_data -/

theorem min_valid_le_iff (B L T : ℕ) (src_mask : ℕ → ℕ → Bool) (hB : 0 < B) :
    min_valid_count B L src_mask ≤ (T : WithTop ℕ) ↔
      (Finset.range B).inf' ⟨0, Finset.mem_range.mpr hB⟩
        (fun b => valid_count L (src_mask b)) ≤ T := by
  unfold min_valid_count
  constructor
  · intro h
    obtain ⟨b, hb, hble⟩ := (Finset.inf_le_iff (WithTop.coe_lt_top T)).mp h
    exact (Finset.inf'_le_iff _).mpr ⟨b, hb, by simpa using hble⟩
  · intro h
    obtain ⟨b, hb, hble⟩ := (Finset.inf'_le_iff _).mp h
    exact (Finset.inf_le_iff (WithTop.coe_lt_top T)).mpr ⟨b, hb, by simpa using hble⟩

/-- Claim C3: calc_cov_from_data returns the input-validation error whose
message states that T must be shorter than the shortest time series (and that
2 * T must be for the DCA model) exactly when T is at least the minimum over
the batch of the number of true mask entries; no covariance is produced in
that case (the Except carries the error alone). -/
theorem calc_cov_from_data_raises_iff (B L d T : ℕ) (xs : ℕ → ℕ → ℕ → ℚ)
    (src_mask : ℕ → ℕ → Bool) (tflag : Bool) (reg : ℚ) (hB : 0 < B) :
    calc_cov_from_data B L d xs src_mask T tflag reg = Except.error dca_err_msg ↔
      (Finset.range B).inf' ⟨0, Finset.mem_range.mpr hB⟩
        (fun b => valid_count L (src_mask b)) ≤ T := by
  rw [← min_valid_le_iff B L T src_mask hB]
  unfold calc_cov_from_data
  by_cases h : min_valid_count B L src_mask ≤ (T : WithTop ℕ)
  · simp [h]
  · simp [h]

/-! ### All-true mask: the plain sliding-window covariance -/

theorem window_valid_all_true {L T : ℕ} {row : ℕ → Bool} (hrow : ∀ l, l < L → row l = true)
    (hL : T < L) {w : ℕ} (hw : w < L - T + 1) : window_valid row T w = true := by
  unfold window_valid
  rw [decide_eq_true_eq]
  intro t ht
  exact hrow (w + t) (by omega)

theorem win_count_all_true {B L T : ℕ} {src_mask : ℕ → ℕ → Bool}
    (hmask : ∀ b, b < B → ∀ l, l < L → src_mask b l = true) (hL : T < L) :
    win_count B L T src_mask = B * (L - T + 1) := by
  unfold win_count
  rw [Finset.sum_congr rfl fun b hb => Finset.sum_congr rfl fun w hw =>
    if_pos (window_valid_all_true (hmask b (Finset.mem_range.mp hb)) hL
      (Finset.mem_range.mp hw))]
  simp [mul_comm]

/-- Claim C6: with an all-true mask, reg = 0 and Toeplitzification disabled,
and rows longer than T, calc_cov_from_data succeeds and returns exactly the
plain empirical cross-covariance of all B * (L - T + 1) sliding-window lagged
vectors: the mean over all windows is subtracted and the outer products are
averaged. -/
theorem calc_cov_from_data_all_true (B L d T : ℕ) (hB : 0 < B) (hL : T < L)
    (xs : ℕ → ℕ → ℕ → ℚ) (src_mask : ℕ → ℕ → Bool)
    (hmask : ∀ b, b < B → ∀ l, l < L → src_mask b l = true) :
    calc_cov_from_data B L d xs src_mask T false 0 =
      Except.ok (cov_raw B L d T xs src_mask) ∧
    ∀ i j, cov_raw B L d T xs src_mask i j = plain_sliding_cov B L d T xs i j := by
  have hwv : ∀ b, b < B → ∀ w, w < L - T + 1 → window_valid (src_mask b) T w = true :=
    fun b hb w hw => window_valid_all_true (hmask b hb) hL hw
  have hcount : win_count B L T src_mask = B * (L - T + 1) := win_count_all_true hmask hL
  have hmean : ∀ i, lag_mean B L d T xs src_mask i = plain_mean B L d T xs i := by
    intro i
    unfold lag_mean plain_mean
    rw [hcount]
    congr 1
    exact Finset.sum_congr rfl fun b hb => Finset.sum_congr rfl fun w hw => by
      rw [if_pos (hwv b (Finset.mem_range.mp hb) w (Finset.mem_range.mp hw))]
      rfl
  constructor
  · have hnotle : ¬ min_valid_count B L src_mask ≤ (T : WithTop ℕ) := by
      have hvc : ∀ b ∈ Finset.range B, ((valid_count L (src_mask b) : ℕ) : WithTop ℕ) =
          ((L : ℕ) : WithTop ℕ) := by
        intro b hb
        unfold valid_count
        rw [Finset.sum_congr rfl fun l hl =>
          if_pos (hmask b (Finset.mem_range.mp hb) l (Finset.mem_range.mp hl))]
        simp
      unfold min_valid_count
      rw [Finset.inf_congr rfl hvc, Finset.inf_const ⟨0, Finset.mem_range.mpr hB⟩]
      intro hc
      have hle : L ≤ T := by exact_mod_cast hc
      omega
    simp [calc_cov_from_data, hnotle]
  · intro i j
    unfold cov_raw plain_sliding_cov
    rw [hcount]
    congr 1
    exact Finset.sum_congr rfl fun b hb => Finset.sum_congr rfl fun w hw => by
      rw [if_pos (hwv b (Finset.mem_range.mp hb) w (Finset.mem_range.mp hw)),
        hmean i, hmean j]
      rfl

/-- Claim C8: for fixed inputs satisfying the length precondition and any
r > 0, the covariance returned with reg = r differs from the one returned
with reg = 0 exactly by r times the identity on the (T*d) x (T*d) shape. -/
theorem calc_cov_from_data_reg_diff (B L d T : ℕ) (xs : ℕ → ℕ → ℕ → ℚ)
    (src_mask : ℕ → ℕ → Bool) (tflag : Bool) (r : ℚ) (hr : 0 < r)
    (hpre : (T : WithTop ℕ) < min_valid_count B L src_mask) :
    ∃ C0 Cr, calc_cov_from_data B L d xs src_mask T tflag 0 = Except.ok C0 ∧
      calc_cov_from_data B L d xs src_mask T tflag r = Except.ok Cr ∧
      ∀ i j, i < T * d → j < T * d → Cr i j - C0 i j = r * eye_q i j := by
  have hcond : ¬ min_valid_count B L src_mask ≤ (T : WithTop ℕ) := not_le.mpr hpre
  refine ⟨(if tflag then matrix_toeplitzify T d (cov_raw B L d T xs src_mask)
      else cov_raw B L d T xs src_mask),
    fun i j => (if tflag then matrix_toeplitzify T d (cov_raw B L d T xs src_mask)
      else cov_raw B L d T xs src_mask) i j + r * eye_q i j, ?_, ?_, ?_⟩
  · simp [calc_cov_from_data, hcond]
  · simp [calc_cov_from_data, hcond, hr]
  · intro i j _ _
    ring

/-! ### Spectrum rectification -/

theorem isEigenvalue_add_smul_one {n : ℕ} (A : Matrix (Fin n) (Fin n) ℝ) (c lam : ℝ) :
    IsEigenvalue (A + c • (1 : Matrix (Fin n) (Fin n) ℝ)) lam ↔ IsEigenvalue A (lam - c) := by
  constructor
  · rintro ⟨v, hv, he⟩
    refine ⟨v, hv, ?_⟩
    rw [Matrix.add_mulVec, Matrix.smul_mulVec_assoc, Matrix.one_mulVec] at he
    rw [sub_smul, ← he]
    abel
  · rintro ⟨v, hv, he⟩
    refine ⟨v, hv, ?_⟩
    rw [Matrix.add_mulVec, Matrix.smul_mulVec_assoc, Matrix.one_mulVec, he, sub_smul]
    abel

theorem isMinEigenvalue_add_smul_one {n : ℕ} (A : Matrix (Fin n) (Fin n) ℝ) (c μ : ℝ)
    (h : IsMinEigenvalue A μ) :
    IsMinEigenvalue (A + c • (1 : Matrix (Fin n) (Fin n) ℝ)) (μ + c) := by
  constructor
  · rw [isEigenvalue_add_smul_one, add_sub_cancel_right]
    exact h.1
  · intro lam hlam
    have := h.2 (lam - c) ((isEigenvalue_add_smul_one A c lam).mp hlam)
    linarith

/-- Claim C2: for a symmetric real matrix with minimum eigenvalue min_eig and
any epsilon > 0, rectify_spectrum adds (-min_eig + epsilon) times the identity
when min_eig < 0, making the minimum eigenvalue of the result exactly epsilon,
and returns the matrix unchanged whenever min_eig >= 0 (so minimum eigenvalues
inside [0, epsilon) pass through uncorrected). -/
theorem rectify_spectrum_spec {n : ℕ} (cov : Matrix (Fin n) (Fin n) ℝ)
    (hsym : cov.IsSymm) (min_eig ε : ℝ) (hmin : IsMinEigenvalue cov min_eig)
    (hε : 0 < ε) :
    (min_eig < 0 →
      rectify_spectrum cov min_eig ε =
        cov + (-min_eig + ε) • (1 : Matrix (Fin n) (Fin n) ℝ) ∧
      IsMinEigenvalue (rectify_spectrum cov min_eig ε) ε) ∧
    (0 ≤ min_eig → rectify_spectrum cov min_eig ε = cov) := by
  constructor
  · intro hneg
    have heq : rectify_spectrum cov min_eig ε =
        cov + (-min_eig + ε) • (1 : Matrix (Fin n) (Fin n) ℝ) := by
      unfold rectify_spectrum
      rw [if_pos hneg]
    refine ⟨heq, ?_⟩
    rw [heq]
    have := isMinEigenvalue_add_smul_one cov (-min_eig + ε) min_eig hmin
    rwa [show min_eig + (-min_eig + ε) = ε by ring] at this
  · intro hpos
    unfold rectify_spectrum
    rw [if_neg (not_lt.mpr hpos)]

/-! ### Predictive information -/

theorem logdet_firstBlock_congr {α : Type} [Field α]
    (logdet : (m : ℕ) → Matrix (Fin m) (Fin m) α → α) {n : ℕ}
    (cov : Matrix (Fin n) (Fin n) α) {m m' : ℕ} (hm : m = m') (h : m ≤ n) (h' : m' ≤ n) :
    logdet m (firstBlock m n h cov) = logdet m' (firstBlock m' n h' cov) := by
  subst hm
  rfl

/-- Claim C4: on a matrix of even size 2 * T_pi, calc_pi_from_cov returns
exactly logdet of the top-left T_pi x T_pi corner minus half the logdet of the
full matrix, for every semantics of the logdet routine. -/
theorem calc_pi_from_cov_even {α : Type} [Field α]
    (logdet : (m : ℕ) → Matrix (Fin m) (Fin m) α → α) (T_pi : ℕ)
    (cov : Matrix (Fin (2 * T_pi)) (Fin (2 * T_pi)) α) :
    calc_pi_from_cov logdet (2 * T_pi) cov =
      logdet T_pi (firstBlock T_pi (2 * T_pi) (by omega) cov) -
        1 / 2 * logdet (2 * T_pi) cov := by
  unfold calc_pi_from_cov
  rw [logdet_firstBlock_congr logdet cov (show 2 * T_pi / 2 = T_pi by omega)
    (Nat.div_le_self (2 * T_pi) 2) (by omega)]

/-- Claim C9: calc_pi_from_cov does not reject matrices of odd size 2*k + 1:
it silently takes T_pi = k (the floor of half the size) and returns logdet of
the k x k corner minus half the logdet of the full odd-size matrix. -/
theorem calc_pi_from_cov_odd {α : Type} [Field α]
    (logdet : (m : ℕ) → Matrix (Fin m) (Fin m) α → α) (k : ℕ)
    (cov : Matrix (Fin (2 * k + 1)) (Fin (2 * k + 1)) α) :
    calc_pi_from_cov logdet (2 * k + 1) cov =
      logdet k (firstBlock k (2 * k + 1) (by omega) cov) -
        1 / 2 * logdet (2 * k + 1) cov := by
  unfold calc_pi_from_cov
  rw [logdet_firstBlock_congr logdet cov (show (2 * k + 1) / 2 = k by omega)
    (Nat.div_le_self (2 * k + 1) 2) (by omega)]

/-! ### Concrete witnesses -/

/-- Witness for claim C1 at T = 3, d = 1 on a concrete non-symmetric matrix:
the blocks at lag 1 starting at rows 0 and 1 agree, and the block at lag 1 is
the stated mean of symmetrized entries. -/
theorem matrix_toeplitzify_block_toeplitz_witness :
    matrix_toeplitzify 3 1 (fun i j => (i : ℚ) + 2 * j) (0 * 1 + 0) (1 * 1 + 0) =
      matrix_toeplitzify 3 1 (fun i j => (i : ℚ) + 2 * j) (1 * 1 + 0) (2 * 1 + 0) ∧
    matrix_toeplitzify 3 1 (fun i j => (i : ℚ) + 2 * j) (0 * 1 + 0) ((0 + 1) * 1 + 0) =
      (∑ s ∈ Finset.range (3 - 1),
          ((((s * 1 + 0 : ℕ) : ℚ) + 2 * (((s + 1) * 1 + 0 : ℕ) : ℚ)) +
            ((((s + 1) * 1 + 0 : ℕ) : ℚ) + 2 * ((s * 1 + 0 : ℕ) : ℚ))) / 2) /
        ((3 - 1 : ℕ) : ℚ) := by
  have h := matrix_toeplitzify_block_toeplitz 3 1 (by decide) (by decide)
    (fun i j => (i : ℚ) + 2 * j)
  exact ⟨h.1 0 1 1 2 0 0 (by decide) (by decide) (by decide) (by decide) (by decide)
      (by decide) (by decide),
    h.2 1 0 0 0 (by decide) (by decide) (by decide)⟩

/-- Witness for claim C2 on the 1 x 1 real matrix (-2) with epsilon = 1: the
branch fires and the rectified matrix has minimum eigenvalue exactly 1. -/
theorem rectify_spectrum_spec_witness :
    rectify_spectrum ((-2 : ℝ) • (1 : Matrix (Fin 1) (Fin 1) ℝ)) (-2) 1 =
        (-2 : ℝ) • (1 : Matrix (Fin 1) (Fin 1) ℝ) +
          (-(-2 : ℝ) + 1) • (1 : Matrix (Fin 1) (Fin 1) ℝ) ∧
      IsMinEigenvalue (rectify_spectrum ((-2 : ℝ) • (1 : Matrix (Fin 1) (Fin 1) ℝ)) (-2) 1) 1 := by
  have hsym : ((-2 : ℝ) • (1 : Matrix (Fin 1) (Fin 1) ℝ)).IsSymm := by
    unfold Matrix.IsSymm
    rw [Matrix.transpose_smul, Matrix.transpose_one]
  have hmin : IsMinEigenvalue ((-2 : ℝ) • (1 : Matrix (Fin 1) (Fin 1) ℝ)) (-2) := by
    constructor
    · refine ⟨fun _ => 1, ?_, ?_⟩
      · intro h
        simpa using congrFun h 0
      · rw [Matrix.smul_mulVec_assoc, Matrix.one_mulVec]
    · rintro lam ⟨v, hv, he⟩
      rw [Matrix.smul_mulVec_assoc, Matrix.one_mulVec] at he
      obtain ⟨i, hi⟩ := Function.ne_iff.mp hv
      simp only [Pi.zero_apply] at hi
      have h0 := congrFun he i
      simp only [Pi.smul_apply, smul_eq_mul] at h0
      exact (mul_right_cancel₀ hi h0).le
  exact (rectify_spectrum_spec _ hsym (-2) 1 hmin one_pos).1 (by norm_num)

/-- Witness for claim C3: B = 2, L = 10, d = 3, valid lengths 5 and 8, T = 5
raises the ValueError with the documented message. -/
theorem calc_cov_from_data_raises_iff_witness :
    calc_cov_from_data 2 10 3 (fun _ _ _ => 0)
        (fun b l => decide (l < if b = 0 then 5 else 8)) 5 true 0 =
      Except.error dca_err_msg :=
  (calc_cov_from_data_raises_iff 2 10 3 5 (fun _ _ _ => 0)
      (fun b l => decide (l < if b = 0 then 5 else 8)) true 0 (by decide)).mpr
    (by decide)

/-- Witness for claim C5 at T = 2, d = 2 on a concrete matrix, evaluated at
entry (1, 2). -/
theorem matrix_toeplitzify_idempotent_witness :
    matrix_toeplitzify 2 2 (matrix_toeplitzify 2 2 (fun i j => (i : ℚ) * 3 + j * j)) 1 2 =
      matrix_toeplitzify 2 2 (fun i j => (i : ℚ) * 3 + j * j) 1 2 :=
  matrix_toeplitzify_idempotent 2 2 (by decide) (by decide)
    (fun i j => (i : ℚ) * 3 + j * j) 1 2

/-- Witness for claim C6: B = 1, L = 6, d = 1, X = [1, 2, 3, 4, 5, 6], T = 2,
all-true mask; the returned covariance is the plain sliding-window covariance,
whose four entries all equal the hand-computed value 2. -/
theorem calc_cov_from_data_all_true_witness :
    (calc_cov_from_data 1 6 1 (fun _ l _ => (l : ℚ) + 1) (fun _ _ => true) 2 false 0 =
        Except.ok (cov_raw 1 6 1 2 (fun _ l _ => (l : ℚ) + 1) (fun _ _ => true)) ∧
      ∀ i j, cov_raw 1 6 1 2 (fun _ l _ => (l : ℚ) + 1) (fun _ _ => true) i j =
        plain_sliding_cov 1 6 1 2 (fun _ l _ => (l : ℚ) + 1) i j) ∧
    plain_sliding_cov 1 6 1 2 (fun _ l _ => (l : ℚ) + 1) 0 0 = 2 ∧
    plain_sliding_cov 1 6 1 2 (fun _ l _ => (l : ℚ) + 1) 0 1 = 2 ∧
    plain_sliding_cov 1 6 1 2 (fun _ l _ => (l : ℚ) + 1) 1 0 = 2 ∧
    plain_sliding_cov 1 6 1 2 (fun _ l _ => (l : ℚ) + 1) 1 1 = 2 := by
  refine ⟨calc_cov_from_data_all_true 1 6 1 2 (by decide) (by decide)
      (fun _ l _ => (l : ℚ) + 1) (fun _ _ => true) (by decide), ?_, ?_, ?_, ?_⟩ <;>
    norm_num [plain_sliding_cov, plain_mean, Finset.sum_range_succ]

/-- Witness for claim C8: B = 1, L = 3, d = 1, T = 1, all-true mask, r = 2. -/
theorem calc_cov_from_data_reg_diff_witness :
    ∃ C0 Cr,
      calc_cov_from_data 1 3 1 (fun _ _ _ => 0) (fun _ _ => true) 1 false 0 =
          Except.ok C0 ∧
        calc_cov_from_data 1 3 1 (fun _ _ _ => 0) (fun _ _ => true) 1 false 2 =
          Except.ok Cr ∧
        ∀ i j, i < 1 * 1 → j < 1 * 1 → Cr i j - C0 i j = 2 * eye_q i j :=
  calc_cov_from_data_reg_diff 1 3 1 1 (fun _ _ _ => 0) (fun _ _ => true) false 2
    (by norm_num) (by decide)

end DAPC
